import Mathlib

/-!
Shallow embedding of `src/server.js` (Liz backend): access-code verification
with single-device sessions, logout, chat proxying, random code generation,
seeding, and the deterministic AES-256-CBC cipher used as a lookup key.

Modelling conventions:
* MongoDB collections become Lean lists carried in a `ServerState` record.
* `Date.now` becomes an explicit `now : Nat` parameter.
* The process-wide cipher `encrypt` (AES-256-CBC over the fixed key/IV from
  the environment) enters the request handlers as a parameter
  `enc : String → String`; the cipher itself is modelled separately below as
  CBC mode over an arbitrary 16-byte block permutation `E` (standing for
  AES-256 under the fixed key), followed by hex encoding, exactly as
  `crypto.createCipheriv('aes-256-cbc', key, iv)` behaves.
* `crypto.randomBytes(12)` becomes an explicit byte-list parameter.
* JavaScript's falsy test `!code` on a string request field is true exactly
  for a missing field or the empty string; both are modelled as `""`.
-/

namespace Liz

/-- One document of the `Code` collection: a plaintext access code together
with its ciphertext under the process-wide key/IV (`codeSchema`). -/
structure AccessCode where
  code : String
  encryptedCode : String
  createdAt : Nat
deriving DecidableEq

/-- One document of the `Session` collection: the single device currently
bound to an access code (`sessionSchema`; `createdAt` drives the 7-day TTL). -/
structure Session where
  code : String
  deviceId : String
  createdAt : Nat
deriving DecidableEq

/-- The persistent state touched by the handlers: the `Code` and `Session`
collections. -/
structure ServerState where
  codes : List AccessCode
  sessions : List Session
deriving DecidableEq

/-- Mongo guarantees at most one `Session` per `code` (unique index); list
states satisfying that invariant. -/
def SessionsOk (l : List Session) : Prop :=
  l.Pairwise (fun a b => a.code ≠ b.code)

instance (l : List Session) : Decidable (SessionsOk l) := by
  unfold SessionsOk; infer_instance

/-- Models `Code.findOne({ encryptedCode: ct })`. -/
def findCodeByCiphertext (ct : String) (codes : List AccessCode) : Option AccessCode :=
  codes.find? (fun c => c.encryptedCode == ct)

/-- Models `Session.findOne({ code })`. -/
def findSessionByCode (code : String) (sessions : List Session) : Option Session :=
  sessions.find? (fun s => s.code == code)

/-- Models `Session.findOneAndUpdate({ code }, { code, deviceId },
{ upsert: true, new: true })`.  Mongoose casts the plain update object to
`$set: { code, deviceId }`, so when a matching document exists only those two
fields are written and its `createdAt` is kept; when no document matches, the
upsert inserts a new one and the schema default `Date.now` fills `createdAt`
(`setDefaultsOnInsert`). -/
def upsertSession (now : Nat) (code deviceId : String) : List Session → List Session
  | [] => [⟨code, deviceId, now⟩]
  | s :: rest =>
    if s.code = code then ⟨code, deviceId, s.createdAt⟩ :: rest
    else s :: upsertSession now code deviceId rest

/-- Models `Session.deleteOne({ code })`: removes the first matching
document, if any. -/
def deleteOneSession (code : String) : List Session → List Session
  | [] => []
  | s :: rest => if s.code = code then rest else s :: deleteOneSession code rest

/-- The sublist of sessions bound to `code`; used to state that handlers
leave exactly one binding. -/
def sessionsFor (code : String) (l : List Session) : List Session :=
  l.filter (fun s => s.code == code)

/-- Responses of `POST /api/verify-code`.  `badRequest` is the 400 from the
missing-field guard, `valid b` the 200 body `{valid: b}`, `conflict` the 403
device-conflict body, and `serverError` the catch-all 500 (unreachable in
this pure model, whose store never throws). -/
inductive VerifyResp where
  | badRequest
  | valid (b : Bool)
  | conflict
  | serverError
deriving DecidableEq

/-- Models the `POST /api/verify-code` handler. -/
def verifyCode (enc : String → String) (now : Nat) (st : ServerState)
    (code deviceId : String) : VerifyResp × ServerState :=
  if code = "" ∨ deviceId = "" then (.badRequest, st)
  else
    match findCodeByCiphertext (enc code) st.codes with
    | none => (.valid false, st)
    | some _ =>
      match findSessionByCode code st.sessions with
      | some s =>
        if s.deviceId ≠ deviceId then (.conflict, st)
        else (.valid true, { st with sessions := upsertSession now code deviceId st.sessions })
      | none => (.valid true, { st with sessions := upsertSession now code deviceId st.sessions })

/-- Responses of `POST /api/logout`. -/
inductive LogoutResp where
  | badRequest
  | success
  | serverError
deriving DecidableEq

/-- Models the `POST /api/logout` handler. -/
def logout (st : ServerState) (code : String) : LogoutResp × ServerState :=
  if code = "" then (.badRequest, st)
  else (.success, { st with sessions := deleteOneSession code st.sessions })

/-- One element of the `messages` array forwarded to the completion API. -/
structure ChatMessage where
  role : String
  content : String
deriving DecidableEq

/-- The request body the handler posts to the completion endpoint:
`{ model: 'gpt-3.5-turbo', messages, temperature: 0.8, max_tokens: 150 }`. -/
structure ChatUpstreamRequest where
  model : String
  messages : List ChatMessage
  temperature : ℚ
  maxTokens : Nat
deriving DecidableEq

/-- Builds the upstream request body around the caller's `messages`. -/
def buildChatRequest (ms : List ChatMessage) : ChatUpstreamRequest :=
  { model := "gpt-3.5-turbo", messages := ms, temperature := 8 / 10, maxTokens := 150 }

/-- The constant 500 body of the chat handler: `{error: 'Failed to generate
response'}`. -/
def chatGenericError : String := "Failed to generate response"

/-- Responses of `POST /api/chat`: the 400 from the missing-`messages` guard,
the relayed upstream body, or the generic 500. -/
inductive ChatResp where
  | badRequest
  | ok (body : String)
  | serverError (body : String)
deriving DecidableEq

/-- Models the `POST /api/chat` handler.  The axios call is a parameter
`upstream` taking the built request body to either a response body or an
error detail (which the handler only logs). -/
def chatHandler (upstream : ChatUpstreamRequest → Except String String)
    (st : ServerState) (messages : Option (List ChatMessage)) : ChatResp × ServerState :=
  match messages with
  | none => (.badRequest, st)
  | some ms =>
    match upstream (buildChatRequest ms) with
    | .ok body => (.ok body, st)
    | .error _ => (.serverError chatGenericError, st)

/-- The `characters` alphabet of `generateRandomCode`, as its character
list. -/
def genAlphabet : List Char :=
  "ABCDEFGHIJKLMNOPQRSTUVWXYZabcdefghijklmnopqrstuvwxyz0123456789!@#$%^&*()".data

/-- Models `generateRandomCode`: 12 characters, each picked as
`characters.charAt(bytes[i] % characters.length)` from the 12 bytes of
`crypto.randomBytes(12)`, here passed explicitly. -/
def generateRandomCode (bytes : List Nat) : String :=
  ⟨(List.range 12).map (fun i => genAlphabet.getD (bytes.getD i 0 % genAlphabet.length) 'A')⟩

/-- Models `seedCodes`: when `Code.countDocuments()` is zero, clear the
collection and insert ten generated plaintext/ciphertext pairs; otherwise do
nothing.  The ten draws of `crypto.randomBytes(12)` are passed as
`randoms`. -/
def seedCodes (enc : String → String) (now : Nat) (randoms : List (List Nat))
    (st : ServerState) : ServerState :=
  if st.codes.length = 0 then
    { st with codes :=
        (List.range 10).map (fun i =>
          let code := generateRandomCode (randoms.getD i [])
          ⟨code, enc code, now⟩) }
  else st

/-!
The cipher.  `encrypt` in the source is
`crypto.createCipheriv('aes-256-cbc', key, iv)` over the utf8 bytes of the
plaintext, with the default PKCS#7 padding, hex-encoded.  The AES-256 block
permutation under the fixed key is abstracted as a parameter
`E : List Nat → List Nat` on 16-byte blocks; CBC chaining, padding and hex
output are modelled concretely.  Plaintexts are their utf8 byte lists. -/

/-- PKCS#7 padding to the 16-byte AES block size, as `cipher.final` applies
it: always pads, with `16 - len % 16` copies of that same value. -/
def pkcs7Pad (m : List Nat) : List Nat :=
  m ++ List.replicate (16 - m.length % 16) (16 - m.length % 16)

/-- Strips PKCS#7 padding; left inverse of `pkcs7Pad`, used to prove the
padding injective. -/
def pkcs7Unpad (s : List Nat) : List Nat :=
  s.take (s.length - s.getLastD 0)

/-- Splits a byte list into 16-byte blocks (fuel-based so that the kernel can
evaluate it). -/
def chunk16Aux : Nat → List Nat → List (List Nat)
  | 0, _ => []
  | _, [] => []
  | fuel + 1, a :: l => ((a :: l).take 16) :: chunk16Aux fuel ((a :: l).drop 16)

/-- Splits a byte list into 16-byte blocks. -/
def chunk16 (l : List Nat) : List (List Nat) :=
  chunk16Aux l.length l

/-- Bytewise xor of two blocks. -/
def bxor (a b : List Nat) : List Nat :=
  List.zipWith Nat.xor a b

/-- CBC chaining: each plaintext block is xored with the previous ciphertext
block (initially the IV) before the block permutation `E` is applied. -/
def cbcBlocks (E : List Nat → List Nat) : List Nat → List (List Nat) → List (List Nat)
  | _, [] => []
  | prev, b :: bs => E (bxor prev b) :: cbcBlocks E (E (bxor prev b)) bs

/-- The lowercase hex digits used by `Buffer`'s `'hex'` encoding. -/
def hexDigits : List Char :=
  "0123456789abcdef".data

/-- Hex digit of a nibble. -/
def hexChar (n : Nat) : Char :=
  hexDigits.getD n 'x'

/-- Value of a hex digit; left inverse of `hexChar` below 16. -/
def hexVal (c : Char) : Nat :=
  hexDigits.indexOf c

/-- Hex encoding of a byte list, two digits per byte. -/
def bytesToHex : List Nat → List Char
  | [] => []
  | b :: l => hexChar (b / 16) :: hexChar (b % 16) :: bytesToHex l

/-- Models `encrypt`: pad the plaintext bytes, run CBC mode from the fixed
IV with the block permutation `E` (AES-256 under the fixed key), and
hex-encode the concatenated ciphertext blocks. -/
def encrypt (E : List Nat → List Nat) (iv : List Nat) (m : List Nat) : String :=
  ⟨bytesToHex (cbcBlocks E iv (chunk16 (pkcs7Pad m))).flatten⟩

/-- Hypotheses that the AES-256 block permutation under the fixed key
satisfies: on 16-byte blocks it keeps the length, is injective, and produces
bytes. -/
structure BlockCipherOk (E : List Nat → List Nat) : Prop where
  len : ∀ x : List Nat, x.length = 16 → (E x).length = 16
  inj : ∀ x y : List Nat, x.length = 16 → y.length = 16 → E x = E y → x = y
  byte : ∀ x : List Nat, x.length = 16 → (∀ a ∈ x, a < 256) → ∀ a ∈ E x, a < 256

/-! Lemmas about the session-store operations. -/

theorem findSessionByCode_eq_none {code : String} {l : List Session} :
    findSessionByCode code l = none ↔ ∀ s ∈ l, s.code ≠ code := by
  simp [findSessionByCode, List.find?_eq_none]

theorem mem_of_mem_upsertSession {now : Nat} {code d : String} :
    ∀ {l : List Session} {s : Session},
      s ∈ upsertSession now code d l → s.code ≠ code → s ∈ l := by
  intro l
  induction l with
  | nil => intro s hs hne; simp [upsertSession] at hs; simp [hs] at hne
  | cons t rest ih =>
    intro s hs hne
    by_cases h : t.code = code
    · simp [upsertSession, h] at hs
      rcases hs with hs | hs
      · simp [hs] at hne
      · exact List.mem_cons_of_mem t hs
    · simp [upsertSession, h] at hs
      rcases hs with hs | hs
      · exact hs ▸ List.mem_cons_self t rest
      · exact List.mem_cons_of_mem t (ih hs hne)

theorem mem_upsertSession_of_mem {now : Nat} {code d : String} :
    ∀ {l : List Session} {s : Session},
      s ∈ l → s.code ≠ code → s ∈ upsertSession now code d l := by
  intro l
  induction l with
  | nil => intro s hs _; simp at hs
  | cons t rest ih =>
    intro s hs hne
    rcases List.mem_cons.mp hs with hs | hs
    · subst hs
      by_cases h : s.code = code
      · exact absurd h hne
      · simp [upsertSession, h]
    · by_cases h : t.code = code
      · simp [upsertSession, h]
        exact Or.inr hs
      · simp [upsertSession, h]
        exact Or.inr (ih hs hne)

theorem mem_of_mem_deleteOneSession {code : String} :
    ∀ {l : List Session} {s : Session}, s ∈ deleteOneSession code l → s ∈ l := by
  intro l
  induction l with
  | nil => intro s hs; simp [deleteOneSession] at hs
  | cons t rest ih =>
    intro s hs
    by_cases h : t.code = code
    · simp [deleteOneSession, h] at hs
      exact List.mem_cons_of_mem t hs
    · simp [deleteOneSession, h] at hs
      rcases hs with hs | hs
      · exact hs ▸ List.mem_cons_self t rest
      · exact List.mem_cons_of_mem t (ih hs)

theorem mem_deleteOneSession_of_ne {code : String} :
    ∀ {l : List Session} {s : Session},
      s ∈ l → s.code ≠ code → s ∈ deleteOneSession code l := by
  intro l
  induction l with
  | nil => intro s hs _; simp at hs
  | cons t rest ih =>
    intro s hs hne
    rcases List.mem_cons.mp hs with hs | hs
    · subst hs
      by_cases h : s.code = code
      · exact absurd h hne
      · simp [deleteOneSession, h]
    · by_cases h : t.code = code
      · simpa [deleteOneSession, h] using hs
      · simp [deleteOneSession, h]
        exact Or.inr (ih hs hne)

theorem deleteOneSession_eq_of_no_match {code : String} :
    ∀ {l : List Session}, (∀ s ∈ l, s.code ≠ code) → deleteOneSession code l = l := by
  intro l
  induction l with
  | nil => intro _; rfl
  | cons t rest ih =>
    intro h
    have ht : t.code ≠ code := h t (List.mem_cons_self t rest)
    simp [deleteOneSession, ht]
    exact ih (fun s hs => h s (List.mem_cons_of_mem t hs))

theorem deleteOneSession_no_match {code : String} :
    ∀ {l : List Session}, SessionsOk l → ∀ s ∈ deleteOneSession code l, s.code ≠ code := by
  intro l
  induction l with
  | nil => intro _ s hs; simp [deleteOneSession] at hs
  | cons t rest ih =>
    intro hok s hs
    rcases (List.pairwise_cons.mp hok) with ⟨hhead, htail⟩
    by_cases h : t.code = code
    · simp [deleteOneSession, h] at hs
      intro hc
      exact hhead s hs (h ▸ hc ▸ rfl)
    · simp [deleteOneSession, h] at hs
      rcases hs with hs | hs
      · exact hs ▸ h
      · exact ih htail s hs

theorem findSessionByCode_deleteOneSession {code : String} {l : List Session}
    (hok : SessionsOk l) :
    findSessionByCode code (deleteOneSession code l) = none :=
  findSessionByCode_eq_none.mpr (deleteOneSession_no_match hok)

theorem deleteOneSession_idem {code : String} {l : List Session} (hok : SessionsOk l) :
    deleteOneSession code (deleteOneSession code l) = deleteOneSession code l :=
  deleteOneSession_eq_of_no_match (deleteOneSession_no_match hok)

theorem sessionsFor_upsert_none {now : Nat} {code d : String} :
    ∀ {l : List Session}, findSessionByCode code l = none →
      sessionsFor code (upsertSession now code d l) = [⟨code, d, now⟩] := by
  intro l
  induction l with
  | nil => intro _; simp [upsertSession, sessionsFor]
  | cons t rest ih =>
    intro h
    have hnone := findSessionByCode_eq_none.mp h
    have ht : t.code ≠ code := hnone t (List.mem_cons_self t rest)
    have hrest : findSessionByCode code rest = none :=
      findSessionByCode_eq_none.mpr (fun s hs => hnone s (List.mem_cons_of_mem t hs))
    simp [upsertSession, ht, sessionsFor] at ih ⊢
    exact ih hrest

theorem sessionsFor_eq_nil {code : String} :
    ∀ {l : List Session}, (∀ s ∈ l, s.code ≠ code) → sessionsFor code l = [] := by
  intro l h
  simp [sessionsFor, List.filter_eq_nil_iff]
  exact h

theorem sessionsFor_upsert_some {now : Nat} {code d : String} :
    ∀ {l : List Session} {s0 : Session}, findSessionByCode code l = some s0 →
      SessionsOk l →
      sessionsFor code (upsertSession now code d l) = [⟨code, d, s0.createdAt⟩] := by
  intro l
  induction l with
  | nil => intro s0 h _; simp [findSessionByCode] at h
  | cons t rest ih =>
    intro s0 h hok
    rcases (List.pairwise_cons.mp hok) with ⟨hhead, htail⟩
    by_cases ht : t.code = code
    · have : some t = some s0 := by
        simpa [findSessionByCode, List.find?, ht] using h
      have hts : t = s0 := Option.some.inj this
      subst hts
      have hrest : ∀ s ∈ rest, s.code ≠ code := by
        intro s hs hc
        exact hhead s hs (ht ▸ hc ▸ rfl)
      simp [upsertSession, ht, sessionsFor]
      simpa [sessionsFor] using sessionsFor_eq_nil hrest
    · have hrest : findSessionByCode code rest = some s0 := by
        have hb : (t.code == code) = false := by simp [ht]
        simpa [findSessionByCode, List.find?, hb] using h
      simp [upsertSession, ht, sessionsFor] at ih ⊢
      simpa [sessionsFor] using ih hrest htail

/-! Claim theorems about the request handlers. -/

/-- C1 (amended): for a request with non-empty `code` and `deviceId` whose
code is in the Code Store and whose session, if any, already belongs to this
device, `verify` answers `{valid: true}` and upserts exactly one Session
binding the code to the device; the creation timestamp is set to the current
time when the Session is newly inserted, while a same-device re-login keeps
the existing Session's original timestamp (the `$set`-style upsert does not
touch `createdAt` of an existing document). -/
theorem verify_upsert_spec (enc : String → String) (now : Nat) (st : ServerState)
    (code deviceId : String) (c : AccessCode)
    (hc : code ≠ "") (hd : deviceId ≠ "")
    (hfound : findCodeByCiphertext (enc code) st.codes = some c)
    (hok : SessionsOk st.sessions)
    (hsame : ∀ s, findSessionByCode code st.sessions = some s → s.deviceId = deviceId) :
    (verifyCode enc now st code deviceId).1 = .valid true ∧
    (verifyCode enc now st code deviceId).2.sessions =
      upsertSession now code deviceId st.sessions ∧
    sessionsFor code (verifyCode enc now st code deviceId).2.sessions =
      [⟨code, deviceId,
        match findSessionByCode code st.sessions with
        | some s => s.createdAt
        | none => now⟩] := by
  cases hsess : findSessionByCode code st.sessions with
  | none =>
    refine ⟨by simp [verifyCode, hc, hd, hfound, hsess], by simp [verifyCode, hc, hd, hfound, hsess], ?_⟩
    simp [verifyCode, hc, hd, hfound, hsess]
    exact sessionsFor_upsert_none hsess
  | some s =>
    have hdev : s.deviceId = deviceId := hsame s hsess
    refine ⟨by simp [verifyCode, hc, hd, hfound, hsess, hdev],
      by simp [verifyCode, hc, hd, hfound, hsess, hdev], ?_⟩
    simp [verifyCode, hc, hd, hfound, hsess, hdev]
    exact sessionsFor_upsert_some hsess hok

/-- C1 witness: a same-device re-login at time 9 over a session created at
time 5 returns `{valid: true}` and keeps the binding, with timestamp 5. -/
theorem verify_upsert_spec_witness :
    ("c" : String) ≠ "" ∧
    (verifyCode id 9 ⟨[⟨"c", "c", 0⟩], [⟨"c", "d", 5⟩]⟩ "c" "d").1 = VerifyResp.valid true ∧
    sessionsFor "c" (verifyCode id 9 ⟨[⟨"c", "c", 0⟩], [⟨"c", "d", 5⟩]⟩ "c" "d").2.sessions =
      [⟨"c", "d", 5⟩] := by
  have h := verify_upsert_spec id 9 ⟨[⟨"c", "c", 0⟩], [⟨"c", "d", 5⟩]⟩ "c" "d" ⟨"c", "c", 0⟩
    (by decide) (by decide) (by decide) (by decide)
    (by intro s hs; have hs' : some (⟨"c", "d", 5⟩ : Session) = some s := hs; cases hs'; rfl)
  exact ⟨by decide, h.1, h.2.2⟩

/-- C1 counterexample: the claim promises a fresh timestamp on every upsert,
including same-device re-login, but re-login at time 9 leaves the session's
`createdAt` at 5 (the upsert only sets `code` and `deviceId`). -/
theorem verify_relogin_timestamp_cex :
    (verifyCode id 9 ⟨[⟨"c", "c", 0⟩], [⟨"c", "d", 5⟩]⟩ "c" "d").1 = VerifyResp.valid true ∧
    (verifyCode id 9 ⟨[⟨"c", "c", 0⟩], [⟨"c", "d", 5⟩]⟩ "c" "d").2.sessions.map
      (fun s => s.createdAt) = [5] ∧
    ¬ ((verifyCode id 9 ⟨[⟨"c", "c", 0⟩], [⟨"c", "d", 5⟩]⟩ "c" "d").2.sessions.map
      (fun s => s.createdAt) = [9]) := by decide

/-- C2 (amended): for a request with non-empty `code` and `deviceId` whose
code is in the Code Store while its session belongs to a different device,
`verify` answers the 403 device-conflict error and leaves the whole state,
in particular the existing Session, unchanged. -/
theorem verify_conflict_spec (enc : String → String) (now : Nat) (st : ServerState)
    (code deviceId : String) (c : AccessCode) (s : Session)
    (hc : code ≠ "") (hd : deviceId ≠ "")
    (hfound : findCodeByCiphertext (enc code) st.codes = some c)
    (hsess : findSessionByCode code st.sessions = some s)
    (hdiff : s.deviceId ≠ deviceId) :
    verifyCode enc now st code deviceId = (.conflict, st) := by
  simp [verifyCode, hc, hd, hfound, hsess, hdiff]

/-- C2 witness: with code `"c"` bound to device `"d"`, device `"x"` is
refused with the conflict error and the state is unchanged. -/
theorem verify_conflict_spec_witness :
    ("d" : String) ≠ "x" ∧
    verifyCode id 0 ⟨[⟨"c", "c", 0⟩], [⟨"c", "d", 5⟩]⟩ "c" "x" =
      (VerifyResp.conflict, ⟨[⟨"c", "c", 0⟩], [⟨"c", "d", 5⟩]⟩) := by
  exact ⟨by decide,
    verify_conflict_spec id 0 ⟨[⟨"c", "c", 0⟩], [⟨"c", "d", 5⟩]⟩ "c" "x" ⟨"c", "c", 0⟩
      ⟨"c", "d", 5⟩ (by decide) (by decide) (by decide) (by decide) (by decide)⟩

/-- C2 counterexample: a request whose `deviceId` is empty satisfies the
claim's premise (the stored session's device `"d"` differs from `""`), yet
the handler answers the 400 missing-field error, not the 403 conflict. -/
theorem verify_conflict_empty_device_cex :
    findCodeByCiphertext (id "c") [⟨"c", "c", 0⟩] = some ⟨"c", "c", 0⟩ ∧
    findSessionByCode "c" [⟨"c", "d", 5⟩] = some ⟨"c", "d", 5⟩ ∧
    ("d" : String) ≠ "" ∧
    (verifyCode id 0 ⟨[⟨"c", "c", 0⟩], [⟨"c", "d", 5⟩]⟩ "c" "").1 = VerifyResp.badRequest ∧
    (verifyCode id 0 ⟨[⟨"c", "c", 0⟩], [⟨"c", "d", 5⟩]⟩ "c" "").1 ≠ VerifyResp.conflict := by
  decide

/-- C3 (amended): for a request with non-empty `code` and `deviceId` whose
ciphertext matches no stored AccessCode, `verify` answers `{valid: false}`
and the state is unchanged. -/
theorem verify_unknown_code_spec (enc : String → String) (now : Nat) (st : ServerState)
    (code deviceId : String)
    (hc : code ≠ "") (hd : deviceId ≠ "")
    (hnone : findCodeByCiphertext (enc code) st.codes = none) :
    verifyCode enc now st code deviceId = (.valid false, st) := by
  simp [verifyCode, hc, hd, hnone]

/-- C3 witness: an unknown code with a non-empty device yields
`{valid: false}` and no session. -/
theorem verify_unknown_code_spec_witness :
    findCodeByCiphertext (id "zzz") [⟨"c", "c", 0⟩] = none ∧
    verifyCode id 0 ⟨[⟨"c", "c", 0⟩], []⟩ "zzz" "d" =
      (VerifyResp.valid false, ⟨[⟨"c", "c", 0⟩], []⟩) := by
  exact ⟨by decide,
    verify_unknown_code_spec id 0 ⟨[⟨"c", "c", 0⟩], []⟩ "zzz" "d"
      (by decide) (by decide) (by decide)⟩

/-- C3 counterexample: the claim promises `{valid: false}` regardless of
`deviceId`, but with an empty `deviceId` the handler answers the 400
missing-field error even though the code matches no AccessCode. -/
theorem verify_unknown_code_empty_device_cex :
    findCodeByCiphertext (id "zzz") ([] : List AccessCode) = none ∧
    (verifyCode id 0 ⟨[], []⟩ "zzz" "").1 = VerifyResp.badRequest ∧
    (verifyCode id 0 ⟨[], []⟩ "zzz" "").1 ≠ VerifyResp.valid false := by decide

/-- C5 (confirmed): logout with a non-empty code unconditionally deletes the
Session for that code — no device check, no Code-Store check (the result
does not depend on `st.codes` at all) — answers `{success: true}` whether or
not a session existed, deletion is idempotent, and an empty/missing code is
the 400 validation error. -/
theorem logout_spec (st : ServerState) (code : String) :
    (code = "" → logout st code = (.badRequest, st)) ∧
    (code ≠ "" →
      (logout st code).1 = .success ∧
      (logout st code).2.codes = st.codes ∧
      (logout st code).2.sessions = deleteOneSession code st.sessions ∧
      (SessionsOk st.sessions →
        sessionsFor code (logout st code).2.sessions = [] ∧
        deleteOneSession code (logout st code).2.sessions = (logout st code).2.sessions)) := by
  constructor
  · intro h; simp [logout, h]
  · intro h
    refine ⟨by simp [logout, h], by simp [logout, h], by simp [logout, h], ?_⟩
    intro hok
    constructor
    · simp [logout, h]
      exact sessionsFor_eq_nil (deleteOneSession_no_match hok)
    · simp [logout, h]
      exact deleteOneSession_idem hok

/-- C5 witness: logging out code `"c"` (bound to `"d"`) succeeds and leaves
no session for `"c"`; logging out with an empty code is the 400 error. -/
theorem logout_spec_witness :
    ("c" : String) ≠ "" ∧
    (logout ⟨[], [⟨"c", "d", 3⟩]⟩ "c").1 = LogoutResp.success ∧
    sessionsFor "c" (logout ⟨[], [⟨"c", "d", 3⟩]⟩ "c").2.sessions = [] ∧
    logout ⟨[], [⟨"c", "d", 3⟩]⟩ "" = (LogoutResp.badRequest, ⟨[], [⟨"c", "d", 3⟩]⟩) := by
  have h := logout_spec ⟨[], [⟨"c", "d", 3⟩]⟩ "c"
  have h2 := (h.2 (by decide))
  exact ⟨by decide, h2.1, (h2.2.2.2 (by decide)).1,
    (logout_spec ⟨[], [⟨"c", "d", 3⟩]⟩ "").1 rfl⟩

/-- C6 (confirmed): for a seeded, hence non-empty, code bound to some device,
logout followed by `verify` with any non-empty device `deviceB` answers
`{valid: true}` and leaves exactly the Session binding the code to
`deviceB`. -/
theorem logout_then_verify_spec (enc : String → String) (now : Nat) (st : ServerState)
    (code deviceB : String) (c : AccessCode) (sA : Session)
    (hc : code ≠ "") (hd : deviceB ≠ "")
    (hfound : findCodeByCiphertext (enc code) st.codes = some c)
    (_hsess : findSessionByCode code st.sessions = some sA)
    (hok : SessionsOk st.sessions) :
    (verifyCode enc now (logout st code).2 code deviceB).1 = .valid true ∧
    sessionsFor code (verifyCode enc now (logout st code).2 code deviceB).2.sessions =
      [⟨code, deviceB, now⟩] := by
  have h1 : (logout st code).2 = { st with sessions := deleteOneSession code st.sessions } := by
    simp [logout, hc]
  have hnone : findSessionByCode code (logout st code).2.sessions = none := by
    rw [h1]
    exact findSessionByCode_deleteOneSession hok
  have hfound1 : findCodeByCiphertext (enc code) (logout st code).2.codes = some c := by
    rw [h1]; exact hfound
  constructor
  · simp [verifyCode, hc, hd, hfound1, hnone]
  · simp [verifyCode, hc, hd, hfound1, hnone]
    exact sessionsFor_upsert_none hnone

/-- C6 witness: seed holds code `"c"` bound to device `"a"`; after logout,
device `"b"` verifies successfully and the code is bound to `"b"`. -/
theorem logout_then_verify_spec_witness :
    (verifyCode id 7 (logout ⟨[⟨"c", "c", 0⟩], [⟨"c", "a", 2⟩]⟩ "c").2 "c" "b").1 =
      VerifyResp.valid true ∧
    sessionsFor "c"
      (verifyCode id 7 (logout ⟨[⟨"c", "c", 0⟩], [⟨"c", "a", 2⟩]⟩ "c").2 "c" "b").2.sessions =
      [⟨"c", "b", 7⟩] := by
  exact logout_then_verify_spec id 7 ⟨[⟨"c", "c", 0⟩], [⟨"c", "a", 2⟩]⟩ "c" "b"
    ⟨"c", "c", 0⟩ ⟨"c", "a", 2⟩ (by decide) (by decide) (by decide) (by decide) (by decide)

/-- C10 (confirmed): on every outcome the handlers touch at most the Session
keyed by the request's code — sessions with any other code survive `verify`
and `logout` in both directions — and no handler creates, updates or deletes
an AccessCode (`chat` leaves the whole state intact). -/
theorem handlers_frame_spec (enc : String → String) (now : Nat) (st : ServerState)
    (code deviceId lcode : String)
    (upstream : ChatUpstreamRequest → Except String String)
    (messages : Option (List ChatMessage)) :
    (verifyCode enc now st code deviceId).2.codes = st.codes ∧
    (∀ s ∈ (verifyCode enc now st code deviceId).2.sessions, s.code ≠ code → s ∈ st.sessions) ∧
    (∀ s ∈ st.sessions, s.code ≠ code → s ∈ (verifyCode enc now st code deviceId).2.sessions) ∧
    (logout st lcode).2.codes = st.codes ∧
    (∀ s ∈ (logout st lcode).2.sessions, s.code ≠ lcode → s ∈ st.sessions) ∧
    (∀ s ∈ st.sessions, s.code ≠ lcode → s ∈ (logout st lcode).2.sessions) ∧
    (chatHandler upstream st messages).2 = st := by
  have hv : (verifyCode enc now st code deviceId).2 = st ∨
      (verifyCode enc now st code deviceId).2 =
        { st with sessions := upsertSession now code deviceId st.sessions } := by
    by_cases hg : code = "" ∨ deviceId = ""
    · left; simp [verifyCode, hg]
    · cases hfc : findCodeByCiphertext (enc code) st.codes with
      | none => left; simp [verifyCode, hg, hfc]
      | some c =>
        cases hfs : findSessionByCode code st.sessions with
        | none => right; simp [verifyCode, hg, hfc, hfs]
        | some s =>
          by_cases hdev : s.deviceId = deviceId
          · right; simp [verifyCode, hg, hfc, hfs, hdev]
          · left; simp [verifyCode, hg, hfc, hfs, hdev]
  have hl : (logout st lcode).2 = st ∨
      (logout st lcode).2 = { st with sessions := deleteOneSession lcode st.sessions } := by
    by_cases hg : lcode = ""
    · left; simp [logout, hg]
    · right; simp [logout, hg]
  refine ⟨?_, ?_, ?_, ?_, ?_, ?_, ?_⟩
  · rcases hv with hv | hv <;> rw [hv]
  · intro s hs hne
    rcases hv with hv | hv
    · rw [hv] at hs; exact hs
    · rw [hv] at hs; exact mem_of_mem_upsertSession hs hne
  · intro s hs hne
    rcases hv with hv | hv
    · rw [hv]; exact hs
    · rw [hv]; exact mem_upsertSession_of_mem hs hne
  · rcases hl with hl | hl <;> rw [hl]
  · intro s hs hne
    rcases hl with hl | hl
    · rw [hl] at hs; exact hs
    · rw [hl] at hs; exact mem_of_mem_deleteOneSession hs
  · intro s hs hne
    rcases hl with hl | hl
    · rw [hl]; exact hs
    · rw [hl]; exact mem_deleteOneSession_of_ne hs hne
  · cases messages with
    | none => rfl
    | some ms =>
      cases hup : upstream (buildChatRequest ms) with
      | ok body => simp [chatHandler, hup]
      | error e => simp [chatHandler, hup]

/-- C10 witness: verifying code `"a"` leaves the session of the unrelated
code `"b"` in place. -/
theorem handlers_frame_spec_witness :
    (⟨"b", "e", 2⟩ : Session) ∈
      (verifyCode id 9 ⟨[⟨"a", "a", 0⟩], [⟨"a", "d", 1⟩, ⟨"b", "e", 2⟩]⟩ "a" "x").2.sessions := by
  exact (handlers_frame_spec id 9 ⟨[⟨"a", "a", 0⟩], [⟨"a", "d", 1⟩, ⟨"b", "e", 2⟩]⟩
    "a" "x" "z" (fun _ => Except.ok "") none).2.2.1 ⟨"b", "e", 2⟩ (by decide) (by decide)

/-! Lemmas about padding, chunking, CBC chaining and hex encoding, leading to
determinism and injectivity of `encrypt`. -/

theorem pkcs7Pad_length_mod (m : List Nat) : (pkcs7Pad m).length % 16 = 0 := by
  simp [pkcs7Pad]
  omega

theorem pkcs7Unpad_pad (m : List Nat) : pkcs7Unpad (pkcs7Pad m) = m := by
  obtain ⟨j, hj⟩ : ∃ j, 16 - m.length % 16 = j + 1 := ⟨16 - m.length % 16 - 1, by omega⟩
  unfold pkcs7Pad pkcs7Unpad
  rw [hj, List.replicate_succ' j (j + 1), ← List.append_assoc, List.getLastD_concat]
  have hlen : ((m ++ List.replicate j (j + 1)) ++ [j + 1]).length - (j + 1) = m.length := by
    simp
  rw [hlen, List.append_assoc]
  exact List.take_left m (List.replicate j (j + 1) ++ [j + 1])

theorem pkcs7Pad_inj {m1 m2 : List Nat} (h : pkcs7Pad m1 = pkcs7Pad m2) : m1 = m2 := by
  have := congrArg pkcs7Unpad h
  rwa [pkcs7Unpad_pad, pkcs7Unpad_pad] at this

theorem pkcs7Pad_bytes {m : List Nat} (hm : ∀ a ∈ m, a < 256) :
    ∀ a ∈ pkcs7Pad m, a < 256 := by
  intro a ha
  rcases List.mem_append.mp ha with ha | ha
  · exact hm a ha
  · have := List.eq_of_mem_replicate ha
    omega

theorem chunk16Aux_flatten :
    ∀ (fuel : Nat) (l : List Nat), l.length ≤ fuel → (chunk16Aux fuel l).flatten = l := by
  intro fuel
  induction fuel with
  | zero =>
    intro l h
    have hl : l = [] := List.eq_nil_of_length_eq_zero (Nat.le_zero.mp h)
    subst hl; rfl
  | succ n ih =>
    intro l h
    cases l with
    | nil => rfl
    | cons a t =>
      show (((a :: t).take 16) :: chunk16Aux n ((a :: t).drop 16)).flatten = a :: t
      simp only [List.length_cons] at h
      rw [List.flatten_cons,
        ih _ (by simp only [List.length_drop, List.length_cons]; omega)]
      exact List.take_append_drop 16 (a :: t)

theorem chunk16_flatten (l : List Nat) : (chunk16 l).flatten = l :=
  chunk16Aux_flatten l.length l le_rfl

theorem chunk16_inj {l1 l2 : List Nat} (h : chunk16 l1 = chunk16 l2) : l1 = l2 := by
  have := congrArg List.flatten h
  rwa [chunk16_flatten, chunk16_flatten] at this

theorem chunk16Aux_block_length :
    ∀ (fuel : Nat) (l : List Nat), l.length ≤ fuel → l.length % 16 = 0 →
      ∀ b ∈ chunk16Aux fuel l, b.length = 16 := by
  intro fuel
  induction fuel with
  | zero =>
    intro l h _ b hb
    have hl : l = [] := List.eq_nil_of_length_eq_zero (Nat.le_zero.mp h)
    subst hl; simp [chunk16Aux] at hb
  | succ n ih =>
    intro l h hmod b hb
    cases l with
    | nil => simp [chunk16Aux] at hb
    | cons a t =>
      simp only [List.length_cons] at h hmod
      have hb' : b = (a :: t).take 16 ∨ b ∈ chunk16Aux n ((a :: t).drop 16) := by
        simpa [chunk16Aux] using hb
      rcases hb' with hb' | hb'
      · subst hb'
        simp only [List.length_take, List.length_cons]
        omega
      · apply ih ((a :: t).drop 16) _ _ b hb'
        · simp only [List.length_drop, List.length_cons]
          omega
        · simp only [List.length_drop, List.length_cons]
          omega

theorem chunk16_block_length {l : List Nat} (h : l.length % 16 = 0) :
    ∀ b ∈ chunk16 l, b.length = 16 :=
  chunk16Aux_block_length l.length l le_rfl h

theorem chunk16_bytes {l : List Nat} (hl : ∀ a ∈ l, a < 256) :
    ∀ b ∈ chunk16 l, ∀ a ∈ b, a < 256 := by
  intro b hb a ha
  apply hl
  rw [← chunk16_flatten l]
  exact List.mem_flatten.mpr ⟨b, hb, ha⟩

theorem chunk16Aux_flatten_blocks :
    ∀ (fuel : Nat) (bs : List (List Nat)), (∀ b ∈ bs, b.length = 16) →
      (bs.flatten).length ≤ fuel → chunk16Aux fuel bs.flatten = bs := by
  intro fuel
  induction fuel with
  | zero =>
    intro bs hb h
    cases bs with
    | nil => rfl
    | cons b t =>
      exfalso
      have hblen : b.length = 16 := hb b (List.mem_cons_self b t)
      rw [List.flatten_cons, List.length_append, hblen] at h
      omega
  | succ n ih =>
    intro bs hb h
    cases bs with
    | nil => rfl
    | cons b t =>
      have hblen : b.length = 16 := hb b (List.mem_cons_self b t)
      cases b with
      | nil => simp at hblen
      | cons x xs =>
        rw [List.flatten_cons, List.cons_append]
        show ((x :: (xs ++ t.flatten)).take 16) ::
            chunk16Aux n ((x :: (xs ++ t.flatten)).drop 16) = (x :: xs) :: t
        rw [← List.cons_append]
        have h1 : ((x :: xs) ++ t.flatten).take 16 = x :: xs := by
          have := List.take_left (x :: xs) t.flatten
          rwa [hblen] at this
        have h2 : ((x :: xs) ++ t.flatten).drop 16 = t.flatten := by
          have := List.drop_left (x :: xs) t.flatten
          rwa [hblen] at this
        rw [h1, h2]
        have hrest : (t.flatten).length ≤ n := by
          rw [List.flatten_cons, List.length_append, hblen] at h
          omega
        rw [ih t (fun u hu => hb u (List.mem_cons_of_mem _ hu)) hrest]

theorem flatten_blocks_inj {bs1 bs2 : List (List Nat)}
    (h1 : ∀ b ∈ bs1, b.length = 16) (h2 : ∀ b ∈ bs2, b.length = 16)
    (h : bs1.flatten = bs2.flatten) : bs1 = bs2 := by
  have e1 := chunk16Aux_flatten_blocks bs1.flatten.length bs1 h1 le_rfl
  have e2 := chunk16Aux_flatten_blocks bs2.flatten.length bs2 h2 le_rfl
  rw [← e1, ← e2, h]

theorem bxor_length (a b : List Nat) : (bxor a b).length = min a.length b.length := by
  simp [bxor]

theorem bxor_bxor_cancel : ∀ (p b : List Nat), b.length ≤ p.length → bxor p (bxor p b) = b := by
  intro p
  induction p with
  | nil =>
    intro b h
    have hb : b = [] := List.eq_nil_of_length_eq_zero (Nat.le_zero.mp h)
    subst hb; rfl
  | cons y ys ih =>
    intro b h
    cases b with
    | nil => rfl
    | cons x xs =>
      have hx : y.xor (y.xor x) = x := by
        show y ^^^ (y ^^^ x) = x
        rw [← Nat.xor_assoc, Nat.xor_self, Nat.zero_xor]
      simp only [bxor, List.zipWith_cons_cons] at ih ⊢
      rw [hx]
      have hlen : xs.length ≤ ys.length := by
        simp only [List.length_cons] at h
        omega
      rw [ih xs hlen]

theorem bxor_inj {p b1 b2 : List Nat} (h1 : b1.length ≤ p.length) (h2 : b2.length ≤ p.length)
    (h : bxor p b1 = bxor p b2) : b1 = b2 := by
  rw [← bxor_bxor_cancel p b1 h1, ← bxor_bxor_cancel p b2 h2, h]

theorem bxor_bytes : ∀ (a b : List Nat), (∀ x ∈ a, x < 256) → (∀ x ∈ b, x < 256) →
    ∀ x ∈ bxor a b, x < 256 := by
  intro a
  induction a with
  | nil => intro b _ _ x hx; simp [bxor] at hx
  | cons y ys ih =>
    intro b ha hb x hx
    cases b with
    | nil => simp [bxor] at hx
    | cons z zs =>
      simp only [bxor, List.zipWith_cons_cons] at hx
      rcases List.mem_cons.mp hx with hx | hx
      · subst hx
        show y ^^^ z < 256
        have h256 : (256 : Nat) = 2 ^ 8 := by norm_num
        rw [h256]
        exact Nat.xor_lt_two_pow (h256 ▸ ha y (List.mem_cons_self y ys))
          (h256 ▸ hb z (List.mem_cons_self z zs))
      · exact ih zs (fun u hu => ha u (List.mem_cons_of_mem y hu))
          (fun u hu => hb u (List.mem_cons_of_mem z hu)) x hx

theorem cbcBlocks_block_length {E : List Nat → List Nat} (hE : BlockCipherOk E) :
    ∀ (bs : List (List Nat)) (prev : List Nat), prev.length = 16 →
      (∀ b ∈ bs, b.length = 16) → ∀ c ∈ cbcBlocks E prev bs, c.length = 16 := by
  intro bs
  induction bs with
  | nil => intro prev _ _ c hc; simp [cbcBlocks] at hc
  | cons b t ih =>
    intro prev hp hb c hc
    have hblen : b.length = 16 := hb b (List.mem_cons_self b t)
    have hxlen : (bxor prev b).length = 16 := by
      rw [bxor_length, hp, hblen]; omega
    have hlen : (E (bxor prev b)).length = 16 := hE.len _ hxlen
    have hc' : c = E (bxor prev b) ∨ c ∈ cbcBlocks E (E (bxor prev b)) t := by
      simpa [cbcBlocks] using hc
    rcases hc' with hc' | hc'
    · subst hc'; exact hlen
    · exact ih (E (bxor prev b)) hlen (fun u hu => hb u (List.mem_cons_of_mem b hu)) c hc'

theorem cbcBlocks_bytes {E : List Nat → List Nat} (hE : BlockCipherOk E) :
    ∀ (bs : List (List Nat)) (prev : List Nat), prev.length = 16 → (∀ a ∈ prev, a < 256) →
      (∀ b ∈ bs, b.length = 16) → (∀ b ∈ bs, ∀ a ∈ b, a < 256) →
      ∀ c ∈ cbcBlocks E prev bs, ∀ a ∈ c, a < 256 := by
  intro bs
  induction bs with
  | nil => intro prev _ _ _ _ c hc; simp [cbcBlocks] at hc
  | cons b t ih =>
    intro prev hp hpb hb hbb c hc
    have hblen : b.length = 16 := hb b (List.mem_cons_self b t)
    have hxlen : (bxor prev b).length = 16 := by
      rw [bxor_length, hp, hblen]; omega
    have hxb : ∀ a ∈ bxor prev b, a < 256 :=
      bxor_bytes prev b hpb (hbb b (List.mem_cons_self b t))
    have hlen : (E (bxor prev b)).length = 16 := hE.len _ hxlen
    have hEb : ∀ a ∈ E (bxor prev b), a < 256 := hE.byte _ hxlen hxb
    have hc' : c = E (bxor prev b) ∨ c ∈ cbcBlocks E (E (bxor prev b)) t := by
      simpa [cbcBlocks] using hc
    rcases hc' with hc' | hc'
    · subst hc'; exact hEb
    · exact ih (E (bxor prev b)) hlen hEb (fun u hu => hb u (List.mem_cons_of_mem b hu))
        (fun u hu => hbb u (List.mem_cons_of_mem b hu)) c hc'

theorem cbcBlocks_inj {E : List Nat → List Nat} (hE : BlockCipherOk E) :
    ∀ (bs1 bs2 : List (List Nat)) (prev : List Nat), prev.length = 16 →
      (∀ b ∈ bs1, b.length = 16) → (∀ b ∈ bs2, b.length = 16) →
      cbcBlocks E prev bs1 = cbcBlocks E prev bs2 → bs1 = bs2 := by
  intro bs1
  induction bs1 with
  | nil =>
    intro bs2 prev _ _ _ h
    cases bs2 with
    | nil => rfl
    | cons b t => simp [cbcBlocks] at h
  | cons b1 t1 ih =>
    intro bs2 prev hp h1 h2 h
    cases bs2 with
    | nil => simp [cbcBlocks] at h
    | cons b2 t2 =>
      simp only [cbcBlocks, List.cons.injEq] at h
      obtain ⟨hh, ht⟩ := h
      have hb1 : b1.length = 16 := h1 b1 (List.mem_cons_self b1 t1)
      have hb2 : b2.length = 16 := h2 b2 (List.mem_cons_self b2 t2)
      have hx1 : (bxor prev b1).length = 16 := by rw [bxor_length, hp, hb1]; omega
      have hx2 : (bxor prev b2).length = 16 := by rw [bxor_length, hp, hb2]; omega
      have hxeq : bxor prev b1 = bxor prev b2 := hE.inj _ _ hx1 hx2 hh
      have hbeq : b1 = b2 :=
        bxor_inj (by rw [hb1, hp]) (by rw [hb2, hp]) hxeq
      subst hbeq
      rw [ih t2 (E (bxor prev b1)) (hE.len _ hx1)
        (fun u hu => h1 u (List.mem_cons_of_mem b1 hu))
        (fun u hu => h2 u (List.mem_cons_of_mem b1 hu)) (hh ▸ ht)]

theorem hexVal_hexChar {n : Nat} (h : n < 16) : hexVal (hexChar n) = n := by
  interval_cases n <;> decide

theorem hexChar_inj {a b : Nat} (ha : a < 16) (hb : b < 16) (h : hexChar a = hexChar b) :
    a = b := by
  have := congrArg hexVal h
  rwa [hexVal_hexChar ha, hexVal_hexChar hb] at this

theorem bytesToHex_inj : ∀ {l1 l2 : List Nat}, (∀ a ∈ l1, a < 256) → (∀ a ∈ l2, a < 256) →
    bytesToHex l1 = bytesToHex l2 → l1 = l2 := by
  intro l1
  induction l1 with
  | nil =>
    intro l2 _ _ h
    cases l2 with
    | nil => rfl
    | cons b t => simp [bytesToHex] at h
  | cons b1 t1 ih =>
    intro l2 h1 h2 h
    cases l2 with
    | nil => simp [bytesToHex] at h
    | cons b2 t2 =>
      simp only [bytesToHex, List.cons.injEq] at h
      obtain ⟨hhi, hlo, ht⟩ := h
      have hb1 : b1 < 256 := h1 b1 (List.mem_cons_self b1 t1)
      have hb2 : b2 < 256 := h2 b2 (List.mem_cons_self b2 t2)
      have e1 : b1 / 16 = b2 / 16 := hexChar_inj (by omega) (by omega) hhi
      have e2 : b1 % 16 = b2 % 16 := hexChar_inj (by omega) (by omega) hlo
      have hbeq : b1 = b2 := by omega
      subst hbeq
      rw [ih (fun u hu => h1 u (List.mem_cons_of_mem b1 hu))
        (fun u hu => h2 u (List.mem_cons_of_mem b1 hu)) ht]

/-- C4 (confirmed): with the fixed key and IV, `encrypt` is a deterministic
function of its plaintext — equal plaintexts give identical ciphertext —
and distinct plaintexts give distinct ciphertext, for any block permutation
`E` with the properties AES-256 has (16-byte-preserving, injective,
byte-valued); plaintexts are byte lists. -/
theorem encrypt_det_inj (E : List Nat → List Nat) (iv : List Nat)
    (hE : BlockCipherOk E) (hivlen : iv.length = 16) (hivb : ∀ a ∈ iv, a < 256)
    (t1 t2 : List Nat) (h1 : ∀ a ∈ t1, a < 256) (h2 : ∀ a ∈ t2, a < 256) :
    encrypt E iv t1 = encrypt E iv t1 ∧
    (t1 ≠ t2 → encrypt E iv t1 ≠ encrypt E iv t2) := by
  refine ⟨rfl, ?_⟩
  intro hne heq
  apply hne
  have hhex : bytesToHex (cbcBlocks E iv (chunk16 (pkcs7Pad t1))).flatten =
      bytesToHex (cbcBlocks E iv (chunk16 (pkcs7Pad t2))).flatten := by
    have := congrArg String.data heq
    simpa [encrypt] using this
  have hc1 : ∀ a ∈ (cbcBlocks E iv (chunk16 (pkcs7Pad t1))).flatten, a < 256 := by
    intro a ha
    rcases List.mem_flatten.mp ha with ⟨c, hc, ha⟩
    exact cbcBlocks_bytes hE _ iv hivlen hivb
      (chunk16_block_length (pkcs7Pad_length_mod t1))
      (chunk16_bytes (pkcs7Pad_bytes h1)) c hc a ha
  have hc2 : ∀ a ∈ (cbcBlocks E iv (chunk16 (pkcs7Pad t2))).flatten, a < 256 := by
    intro a ha
    rcases List.mem_flatten.mp ha with ⟨c, hc, ha⟩
    exact cbcBlocks_bytes hE _ iv hivlen hivb
      (chunk16_block_length (pkcs7Pad_length_mod t2))
      (chunk16_bytes (pkcs7Pad_bytes h2)) c hc a ha
  have hflat := bytesToHex_inj hc1 hc2 hhex
  have hblocks := flatten_blocks_inj
    (cbcBlocks_block_length hE _ iv hivlen (chunk16_block_length (pkcs7Pad_length_mod t1)))
    (cbcBlocks_block_length hE _ iv hivlen (chunk16_block_length (pkcs7Pad_length_mod t2)))
    hflat
  have hchunks := cbcBlocks_inj hE _ _ iv hivlen
    (chunk16_block_length (pkcs7Pad_length_mod t1))
    (chunk16_block_length (pkcs7Pad_length_mod t2)) hblocks
  exact pkcs7Pad_inj (chunk16_inj hchunks)

/-- C4 witness: with `E` the identity block permutation and the zero IV, the
one-byte plaintexts `[0]` and `[1]` encrypt deterministically and to
distinct ciphertexts. -/
theorem encrypt_det_inj_witness :
    ([(0 : Nat)] ≠ [1]) ∧
    encrypt id (List.replicate 16 0) [0] = encrypt id (List.replicate 16 0) [0] ∧
    encrypt id (List.replicate 16 0) [0] ≠ encrypt id (List.replicate 16 0) [1] := by
  have hE : BlockCipherOk id :=
    ⟨fun _ h => h, fun _ _ _ _ h => h, fun _ _ h => h⟩
  have h := encrypt_det_inj id (List.replicate 16 0) hE (by simp)
    (by intro a ha; rw [List.eq_of_mem_replicate ha]; omega)
    [0] [1] (by decide) (by decide)
  exact ⟨by decide, h.1, h.2 (by decide)⟩

/-- C7 (amended): with the 12 secure random bytes of a call, the generator
returns a string of exactly 12 characters, each selected from the fixed
72-character alphabet (A–Z, a–z, 0–9 and the ten symbols of the source
string) as the byte modulo the alphabet length 72. -/
theorem generate_code_spec (bytes : List Nat) (_h : bytes.length = 12) :
    (generateRandomCode bytes).length = 12 ∧
    genAlphabet.length = 72 ∧
    (∀ i, i < 12 →
      (generateRandomCode bytes).data.getD i 'A' =
        genAlphabet.getD (bytes.getD i 0 % 72) 'A') ∧
    (∀ c ∈ (generateRandomCode bytes).data, c ∈ genAlphabet) := by
  have hdata : (generateRandomCode bytes).data =
      (List.range 12).map (fun j => genAlphabet.getD (bytes.getD j 0 % genAlphabet.length) 'A') :=
    rfl
  have hal : genAlphabet.length = 72 := by decide
  refine ⟨by simp [generateRandomCode, String.length], hal, ?_, ?_⟩
  · intro i hi
    rw [hdata, List.getD_eq_getElem _ _ (by simpa using hi)]
    simp [List.getElem_map, List.getElem_range, hal]
  · intro c hc
    rw [hdata] at hc
    rcases List.mem_map.mp hc with ⟨j, _, rfl⟩
    have hlt : bytes.getD j 0 % genAlphabet.length < genAlphabet.length :=
      Nat.mod_lt _ (by decide)
    rw [List.getD_eq_getElem _ _ hlt]
    exact List.getElem_mem hlt

/-- C7 witness: the concrete byte draw `0, 1, ..., 11` has length 12 and the
generated code obeys the modulo-72 indexing, here checked at index 3. -/
theorem generate_code_spec_witness :
    (List.range 12).length = 12 ∧
    (generateRandomCode (List.range 12)).length = 12 ∧
    (generateRandomCode (List.range 12)).data.getD 3 'A' =
      genAlphabet.getD ((List.range 12).getD 3 0 % 72) 'A' := by
  have h := generate_code_spec (List.range 12) (by decide)
  exact ⟨by decide, h.1, h.2.2.1 3 (by decide)⟩

/-- C7 counterexample: the claim's alphabet has 74 characters, but the
alphabet in the code — A–Z, a–z, 0–9 and the ten (not twelve) symbols of
`'!@#$%^&*()'` — has 72. -/
theorem gen_alphabet_length_cex :
    genAlphabet.length = 72 ∧ genAlphabet.length ≠ 74 := by decide

/-- C8 (amended): on an empty Code Store, seeding clears the collection and
inserts exactly the ten generated plaintext/ciphertext pairs (sessions
untouched); when the ten generated plaintexts happen to be pairwise distinct
and the cipher is injective, the stored `code` and `encryptedCode` values
are pairwise distinct — generation itself does not re-check duplicates.  On
a non-empty store, seeding is a no-op. -/
theorem seed_codes_spec (enc : String → String) (now : Nat) (randoms : List (List Nat))
    (st : ServerState) :
    (st.codes = [] →
      (seedCodes enc now randoms st).codes =
        (List.range 10).map (fun i =>
          ⟨generateRandomCode (randoms.getD i []),
           enc (generateRandomCode (randoms.getD i [])), now⟩) ∧
      (seedCodes enc now randoms st).codes.length = 10 ∧
      (seedCodes enc now randoms st).sessions = st.sessions ∧
      (((List.range 10).map (fun i => generateRandomCode (randoms.getD i []))).Nodup →
        Function.Injective enc →
        ((seedCodes enc now randoms st).codes.map (fun c => c.code)).Nodup ∧
        ((seedCodes enc now randoms st).codes.map (fun c => c.encryptedCode)).Nodup)) ∧
    (st.codes ≠ [] → seedCodes enc now randoms st = st) := by
  constructor
  · intro h0
    have hif : st.codes.length = 0 := by rw [h0]; rfl
    have hc : (seedCodes enc now randoms st).codes =
        (List.range 10).map (fun i =>
          ⟨generateRandomCode (randoms.getD i []),
           enc (generateRandomCode (randoms.getD i [])), now⟩) := by
      simp [seedCodes, hif]
    refine ⟨hc, by rw [hc]; simp, by simp [seedCodes, hif], ?_⟩
    intro hnod hinj
    have hcode_map : (seedCodes enc now randoms st).codes.map (fun c => c.code) =
        (List.range 10).map (fun i => generateRandomCode (randoms.getD i [])) := by
      rw [hc, List.map_map]
      rfl
    have henc_map : (seedCodes enc now randoms st).codes.map (fun c => c.encryptedCode) =
        ((List.range 10).map (fun i => generateRandomCode (randoms.getD i []))).map enc := by
      rw [hc, List.map_map, List.map_map]
      rfl
    constructor
    · rw [hcode_map]; exact hnod
    · rw [henc_map]; exact hnod.map hinj
  · intro hne
    have hl : ¬ st.codes.length = 0 := by
      intro hl
      exact hne (List.eq_nil_of_length_eq_zero hl)
    simp [seedCodes, hl]

/-- C8 witness: ten distinct byte draws seed an empty store with ten
records whose codes are pairwise distinct. -/
theorem seed_codes_spec_witness :
    ((List.range 10).map (fun i =>
      generateRandomCode (((List.range 10).map
        (fun j => List.replicate 12 j)).getD i []))).Nodup ∧
    (seedCodes id 0 ((List.range 10).map (fun j => List.replicate 12 j)) ⟨[], []⟩).codes.length
      = 10 ∧
    ((seedCodes id 0 ((List.range 10).map (fun j => List.replicate 12 j)) ⟨[], []⟩).codes.map
      (fun c => c.code)).Nodup := by
  have h := (seed_codes_spec id 0 ((List.range 10).map (fun j => List.replicate 12 j))
    ⟨[], []⟩).1 rfl
  exact ⟨by decide, h.2.1, (h.2.2.2 (by decide) (fun _ _ hab => hab)).1⟩

/-- C8 counterexample: the generator is not re-checked for duplicates, so
with colliding random draws the ten inserted records all carry the same
code, refuting the claim's unconditional pairwise distinctness. -/
theorem seed_duplicate_codes_cex :
    (seedCodes id 0 (List.replicate 10 []) ⟨[], []⟩).codes.length = 10 ∧
    ¬ ((seedCodes id 0 (List.replicate 10 []) ⟨[], []⟩).codes.map (fun c => c.code)).Nodup ∧
    ¬ ((seedCodes id 0 (List.replicate 10 []) ⟨[], []⟩).codes.map
        (fun c => c.encryptedCode)).Nodup := by
  decide

/-- C9 (confirmed): `chat` forwards `messages` unmodified together with the
fixed model, temperature and max-token constants, relays an upstream success
body verbatim, answers any upstream error with the generic constant body —
independent of the error detail, which therefore never reaches the caller —
and a missing `messages` is the 400 validation error. -/
theorem chat_spec (upstream : ChatUpstreamRequest → Except String String)
    (st : ServerState) :
    chatHandler upstream st none = (.badRequest, st) ∧
    (∀ ms : List ChatMessage,
      (buildChatRequest ms).messages = ms ∧
      (buildChatRequest ms).model = "gpt-3.5-turbo" ∧
      (buildChatRequest ms).temperature = 8 / 10 ∧
      (buildChatRequest ms).maxTokens = 150) ∧
    (∀ ms body, upstream (buildChatRequest ms) = .ok body →
      chatHandler upstream st (some ms) = (.ok body, st)) ∧
    (∀ ms e, upstream (buildChatRequest ms) = .error e →
      chatHandler upstream st (some ms) = (.serverError chatGenericError, st)) := by
  refine ⟨rfl, fun ms => ⟨rfl, rfl, rfl, rfl⟩, ?_, ?_⟩
  · intro ms body h
    simp [chatHandler, h]
  · intro ms e h
    simp [chatHandler, h]

/-- C9 witness: a failing upstream with a secret detail yields only the
generic error body, and a succeeding upstream is relayed verbatim. -/
theorem chat_spec_witness :
    chatHandler (fun _ => Except.error "upstream detail") ⟨[], []⟩ (some [⟨"user", "hi"⟩]) =
      (ChatResp.serverError chatGenericError, ⟨[], []⟩) ∧
    chatHandler (fun _ => Except.ok "done") ⟨[], []⟩ (some [⟨"user", "hi"⟩]) =
      (ChatResp.ok "done", ⟨[], []⟩) := by
  exact ⟨(chat_spec (fun _ => Except.error "upstream detail") ⟨[], []⟩).2.2.2
      [⟨"user", "hi"⟩] "upstream detail" rfl,
    (chat_spec (fun _ => Except.ok "done") ⟨[], []⟩).2.2.1 [⟨"user", "hi"⟩] "done" rfl⟩

end Liz
